import Mathlib

/-!
Verification of the storage adapter in `storage.go`: the offset codec
(`offsetFromInt` / `offsetToInt`), the line-bounded `Read`, and the
index / subscriber state machine (`getPath`, `Subscribe`, the mutating
stubs, the initial scan and the watch loop's index updates).

Bytes are modelled as `Nat` (newline = 10, carriage return = 13), file
contents as `List Nat`, offsets as Lean `String`s, and machine integers
as `Int` / `Nat` (the Go values are `int64`; no call site can overflow,
so no modular reduction is needed).
-/

/-- `durablestream.ZeroOffset`.  Modelled from the spec: the library's
"from the beginning" sentinel (the zero value of the library's string
`Offset` type), distinct from its accepted alias `"-1"` which
`offsetToInt` tests for separately. -/
def ZeroOffset : String := ""

/-- The `w` low decimal digits of `n`, big-endian.  For `n < 10 ^ w` this
is exactly the zero-padded fixed-width decimal of `n`. -/
def toDigitsBE (n : Nat) : Nat → List Nat
  | 0 => []
  | w + 1 => toDigitsBE (n / 10) w ++ [n % 10]

/-- `offsetFromInt` (storage.go): `fmt.Sprintf("%020d", n)`.  Every call
site passes a non-negative `int64` (a file size or a cursor), and
`2^63 ≤ 10^20`, so the result is always the 20-digit zero-padded
decimal of `n`. -/
def offsetFromInt (n : Nat) : String :=
  String.mk ((toDigitsBE n 20).map Nat.digitChar)

/-- Decimal digit value of a character, `none` on a non-digit
(the accepting check inside `strconv.ParseInt` for base 10). -/
def digitVal (c : Char) : Option Nat :=
  if '0' ≤ c ∧ c ≤ '9' then some (c.toNat - 48) else none

/-- Base-10 accumulation of `strconv.ParseInt`: fails on the first
non-digit character. -/
def parseDigits (cs : List Char) : Option Nat :=
  cs.foldl
    (fun acc c =>
      match acc, digitVal c with
      | some n, some d => some (n * 10 + d)
      | _, _ => none)
    (some 0)

/-- `strconv.ParseInt(s, 10, 64)`, keeping only the returned value (the
error is discarded by `offsetToInt` via `n, _ :=`): `0` on a syntax
error (empty input, lone sign, or any non-digit character), the
clamped extreme on a range error. -/
def parseIntGo (cs : List Char) : Int :=
  match cs with
  | [] => 0
  | c :: _ =>
    let ds := if c == '-' || c == '+' then cs.tail else cs
    match ds, parseDigits ds with
    | [], _ => 0
    | _ :: _, none => 0
    | _ :: _, some n =>
      if c == '-' then (if 2 ^ 63 < n then -(2 ^ 63 : Int) else -(n : Int))
      else (if 2 ^ 63 - 1 < n then ((2 ^ 63 - 1 : Nat) : Int) else (n : Int))

/-- `offsetToInt` (storage.go): the sentinel and its alias decode to 0;
otherwise `strconv.ParseInt(strings.TrimLeft(string(o), "0"), 10, 64)`
with the error discarded. -/
def offsetToInt (o : String) : Int :=
  if o = ZeroOffset ∨ o = "-1" then 0
  else parseIntGo (o.data.dropWhile (· == '0'))

/-! ### Basic codec lemmas -/

theorem toDigitsBE_length (n w : Nat) : (toDigitsBE n w).length = w := by
  induction w generalizing n with
  | zero => rfl
  | succ w ih => simp [toDigitsBE, ih]

theorem toDigitsBE_lt_ten (n w : Nat) : ∀ d ∈ toDigitsBE n w, d < 10 := by
  induction w generalizing n with
  | zero => simp [toDigitsBE]
  | succ w ih =>
    intro d hd
    simp only [toDigitsBE, List.mem_append, List.mem_singleton] at hd
    rcases hd with hd | hd
    · exact ih _ _ hd
    · subst hd; exact Nat.mod_lt _ (by norm_num)

/-- Big-endian value of a digit list. -/
def beVal : List Nat → Nat
  | [] => 0
  | d :: rest => d * 10 ^ rest.length + beVal rest

theorem beVal_append_last (l : List Nat) (x : Nat) :
    beVal (l ++ [x]) = beVal l * 10 + x := by
  induction l with
  | nil => simp [beVal]
  | cons d rest ih =>
    simp only [List.cons_append, beVal, ih, List.append_eq, List.length_append,
      List.length_cons, List.length_nil]
    ring

theorem beVal_toDigitsBE (n w : Nat) (h : n < 10 ^ w) :
    beVal (toDigitsBE n w) = n := by
  induction w generalizing n with
  | zero =>
    interval_cases n
    rfl
  | succ w ih =>
    have hdiv : n / 10 < 10 ^ w := by
      rw [Nat.div_lt_iff_lt_mul (by norm_num)]
      calc n < 10 ^ (w + 1) := h
        _ = 10 ^ w * 10 := by ring
    simp only [toDigitsBE, beVal_append_last, ih _ hdiv]
    omega

theorem toDigitsBE_zero (w : Nat) : toDigitsBE 0 w = List.replicate w 0 := by
  induction w with
  | zero => rfl
  | succ w ih =>
    simp only [toDigitsBE, Nat.zero_div, Nat.zero_mod, ih]
    rw [← List.replicate_succ' w 0]

theorem beVal_dropZeros (l : List Nat) :
    beVal (l.dropWhile (· == 0)) = beVal l := by
  induction l with
  | nil => rfl
  | cons d rest ih =>
    by_cases hd : d = 0
    · subst hd
      simpa [List.dropWhile_cons, beVal] using ih
    · simp [List.dropWhile_cons, hd, beVal]

theorem beVal_all_zero (l : List Nat) (h : ∀ d ∈ l, d = 0) : beVal l = 0 := by
  induction l with
  | nil => rfl
  | cons d rest ih =>
    have hd : d = 0 := h d (List.mem_cons_self _ _)
    simp [beVal, hd, ih fun x hx => h x (List.mem_cons_of_mem _ hx)]

theorem digitVal_digitChar : ∀ d < 10, digitVal (Nat.digitChar d) = some d := by
  decide

theorem digitChar_ne_sign :
    ∀ d < 10, ((Nat.digitChar d == '-') = false) ∧ ((Nat.digitChar d == '+') = false) := by
  decide

theorem digitChar_beq_zero : ∀ d < 10, ((Nat.digitChar d == '0') = (d == 0)) := by
  decide

theorem digitChar_lt : ∀ d < 10, ∀ e < 10, d < e → Nat.digitChar d < Nat.digitChar e := by
  decide

theorem lex_append_last {r : Nat → Nat → Prop} :
    ∀ {a b : List Nat} {x y : Nat}, a.length = b.length → List.Lex r a b →
      List.Lex r (a ++ [x]) (b ++ [y]) := by
  intro a b x y hlen h
  induction h with
  | nil => simp at hlen
  | rel h => exact List.Lex.rel h
  | cons _ ih =>
    simp only [List.length_cons, Nat.add_right_cancel_iff] at hlen
    exact List.Lex.cons (ih hlen)

theorem lex_last_of_eq {r : Nat → Nat → Prop} {x y : Nat} (h : r x y) :
    ∀ a : List Nat, List.Lex r (a ++ [x]) (a ++ [y])
  | [] => List.Lex.rel h
  | _ :: rest => List.Lex.cons (lex_last_of_eq h rest)

theorem toDigitsBE_lex (w : Nat) :
    ∀ a b : Nat, a < 10 ^ w → b < 10 ^ w → a < b →
      List.Lex (· < ·) (toDigitsBE a w) (toDigitsBE b w) := by
  induction w with
  | zero => intro a b ha hb hab; omega
  | succ w ih =>
    intro a b ha hb hab
    have hdiva : a / 10 < 10 ^ w := by
      rw [Nat.div_lt_iff_lt_mul (by norm_num)]
      calc a < 10 ^ (w + 1) := ha
        _ = 10 ^ w * 10 := by ring
    have hdivb : b / 10 < 10 ^ w := by
      rw [Nat.div_lt_iff_lt_mul (by norm_num)]
      calc b < 10 ^ (w + 1) := hb
        _ = 10 ^ w * 10 := by ring
    rcases Nat.lt_trichotomy (a / 10) (b / 10) with hd | hd | hd
    · exact lex_append_last (by simp [toDigitsBE_length]) (ih _ _ hdiva hdivb hd)
    · have hmod : a % 10 < b % 10 := by
        have h1 := Nat.div_add_mod a 10
        have h2 := Nat.div_add_mod b 10
        omega
      simp only [toDigitsBE, hd]
      exact lex_last_of_eq hmod _
    · exfalso
      have h1 := Nat.div_add_mod a 10
      have h2 := Nat.div_add_mod b 10
      have : b % 10 < 10 := Nat.mod_lt _ (by norm_num)
      omega

theorem lex_map_digitChar :
    ∀ {l1 l2 : List Nat}, (∀ d ∈ l1, d < 10) → (∀ d ∈ l2, d < 10) →
      List.Lex (· < ·) l1 l2 →
      List.Lex (· < ·) (l1.map Nat.digitChar) (l2.map Nat.digitChar) := by
  intro l1 l2 h1 h2 h
  induction h with
  | nil => exact List.Lex.nil
  | @rel a as b bs hab =>
    exact List.Lex.rel
      (digitChar_lt a (h1 a (List.mem_cons_self _ _)) b (h2 b (List.mem_cons_self _ _)) hab)
  | @cons a as bs _ ih =>
    exact List.Lex.cons
      (ih (fun d hd => h1 d (List.mem_cons_of_mem _ hd))
          (fun d hd => h2 d (List.mem_cons_of_mem _ hd)))

theorem offsetFromInt_data (n : Nat) :
    (offsetFromInt n).data = (toDigitsBE n 20).map Nat.digitChar := by
  rw [offsetFromInt]

theorem offsetFromInt_length (n : Nat) : (offsetFromInt n).length = 20 := by
  rw [offsetFromInt, String.length_mk, List.length_map, toDigitsBE_length]

theorem offsetFromInt_lt {p1 p2 : Nat} (h12 : p1 < p2) (h2 : p2 < 10 ^ 20) :
    offsetFromInt p1 < offsetFromInt p2 := by
  rw [String.lt_iff_toList_lt]
  show List.Lex (· < ·) (offsetFromInt p1).data (offsetFromInt p2).data
  rw [offsetFromInt_data, offsetFromInt_data]
  exact lex_map_digitChar (toDigitsBE_lt_ten _ _) (toDigitsBE_lt_ten _ _)
    (toDigitsBE_lex 20 p1 p2 (lt_trans h12 h2) h2 h12)

/-! ### Decode: round trip -/

theorem parseDigits_map_aux (l : List Nat) (h : ∀ d ∈ l, d < 10) : ∀ n : Nat,
    (l.map Nat.digitChar).foldl
      (fun acc c =>
        match acc, digitVal c with
        | some n, some d => some (n * 10 + d)
        | _, _ => none)
      (some n) = some (n * 10 ^ l.length + beVal l) := by
  induction l with
  | nil => simp [beVal]
  | cons d rest ih =>
    intro n
    have hd : d < 10 := h d (List.mem_cons_self _ _)
    simp only [List.map_cons, List.foldl_cons, digitVal_digitChar d hd]
    rw [ih (fun x hx => h x (List.mem_cons_of_mem _ hx)) (n * 10 + d)]
    congr 1
    simp only [List.length_cons, beVal]
    ring

theorem parseDigits_map (l : List Nat) (h : ∀ d ∈ l, d < 10) :
    parseDigits (l.map Nat.digitChar) = some (beVal l) := by
  simpa using parseDigits_map_aux l h 0

theorem parseIntGo_digits (l : List Nat) (h10 : ∀ d ∈ l, d < 10) (hne : l ≠ [])
    (hle : beVal l ≤ 2 ^ 63 - 1) :
    parseIntGo (l.map Nat.digitChar) = (beVal l : Int) := by
  cases l with
  | nil => exact absurd rfl hne
  | cons d rest =>
    have hd : d < 10 := h10 d (List.mem_cons_self _ _)
    have hsign := digitChar_ne_sign d hd
    simp only [List.map_cons, parseIntGo, hsign.1, hsign.2, Bool.or_self, if_neg Bool.false_ne_true]
    rw [show (Nat.digitChar d :: List.map Nat.digitChar rest)
        = List.map Nat.digitChar (d :: rest) from rfl]
    rw [parseDigits_map _ h10]
    simp only [List.map_cons]
    rw [if_neg (by simp only [beVal] at hle ⊢; omega)]

theorem dropWhile_zero_map (l : List Nat) (h : ∀ d ∈ l, d < 10) :
    (l.map Nat.digitChar).dropWhile (· == '0')
      = (l.dropWhile (· == 0)).map Nat.digitChar := by
  induction l with
  | nil => rfl
  | cons d rest ih =>
    have hd : d < 10 := h d (List.mem_cons_self _ _)
    by_cases h0 : d = 0
    · subst h0
      simp only [List.map_cons, List.dropWhile_cons]
      norm_num [Nat.digitChar]
      exact ih fun x hx => h x (List.mem_cons_of_mem _ hx)
    · simp only [List.map_cons, List.dropWhile_cons, digitChar_beq_zero d hd]
      have : (d == 0) = false := by simp [h0]
      simp [this]

theorem offsetFromInt_ne_sentinels (p : Nat) :
    ¬(offsetFromInt p = ZeroOffset ∨ offsetFromInt p = "-1") := by
  rintro (h | h)
  · have := congrArg String.length h
    rw [offsetFromInt_length] at this
    simp [ZeroOffset, String.length] at this
  · have := congrArg String.length h
    rw [offsetFromInt_length] at this
    simp [String.length] at this

theorem offset_roundtrip (p : Nat) (h : p < 2 ^ 63) :
    offsetToInt (offsetFromInt p) = (p : Int) := by
  rw [offsetToInt, if_neg (offsetFromInt_ne_sentinels p)]
  rw [offsetFromInt_data, dropWhile_zero_map _ (toDigitsBE_lt_ten _ _)]
  have hp20 : p < 10 ^ 20 := lt_trans h (by norm_num)
  by_cases hp : p = 0
  · subst hp
    rw [toDigitsBE_zero]
    simp [List.dropWhile_eq_nil_iff, parseIntGo]
  · have hbe : beVal ((toDigitsBE p 20).dropWhile (· == 0)) = p := by
      rw [beVal_dropZeros, beVal_toDigitsBE _ _ hp20]
    have hne : (toDigitsBE p 20).dropWhile (· == 0) ≠ [] := by
      intro hnil
      rw [hnil] at hbe
      exact hp (by simpa [beVal] using hbe.symm)
    rw [parseIntGo_digits _
        (fun d hd => toDigitsBE_lt_ten p 20 d (List.dropWhile_sublist _ |>.mem hd))
        hne (by omega), hbe]

/-! ### The line scanner

`Read` uses a `bufio.Scanner` with the default `ScanLines` split function
and a 16 MiB maximum buffer.  `ScanLines` splits at each newline byte,
strips the newline, and also strips one trailing carriage-return byte
from every token; an unterminated final token is still delivered, and a
trailing newline does not produce a final empty token. -/

/-- The carriage-return stripping done by `bufio.ScanLines` (`dropCR`). -/
def dropCR (l : List Nat) : List Nat :=
  if l.getLast? = some 13 then l.dropLast else l

/-- Tokenisation core: `acc` is the current (reversed) partial line. -/
def scanLinesCore : List Nat → List Nat → List (List Nat)
  | [], acc => [dropCR acc.reverse]
  | c :: rest, acc =>
    if c = 10 then
      dropCR acc.reverse :: (if rest = [] then [] else scanLinesCore rest [])
    else
      scanLinesCore rest (c :: acc)

/-- The token sequence produced by a `bufio.Scanner` with `ScanLines`
over the given bytes. -/
def scanLines (b : List Nat) : List (List Nat) :=
  match b with
  | [] => []
  | _ :: _ => scanLinesCore b []

/-- The scanner's maximum token size: `scanner.Buffer(buf, 16*1024*1024)`.
A newline-terminated line is delivered only if the line plus its newline
fits the buffer, i.e. only if its length is below this bound; a longer
line makes `Scan` fail with `ErrTooLong`.  (For an unterminated final
token the boundary case of exactly this size would still be delivered;
no statement below depends on tokens near the bound.) -/
def maxLineSize : Nat := 16 * 1024 * 1024

/-- A message of `durablestream.ReadResult`: raw line bytes plus the
encoded byte offset just past the line's trailing newline. -/
structure StoredMessage where
  data : List Nat
  offset : String
deriving DecidableEq, Repr

/-- `durablestream.ReadResult`. -/
structure ReadResult where
  messages : List StoredMessage
  nextOffset : String
  tailOffset : String
deriving DecidableEq, Repr

/-- The `for scanner.Scan()` loop of `Read` (storage.go): `bytesRead` is
the accumulated payload size, `cur` the running byte cursor
(`currentOffset`), `acc` the accumulated messages (reversed).  A line of
at least `maxLineSize` bytes makes the scan fail; otherwise the loop
stops before a line exactly when the payload accumulated so far plus the
line's bytes exceeds `limit` and at least one message has been taken. -/
def readLoop (limit : Int) : List (List Nat) → Nat → Nat → List StoredMessage →
    Except String (List StoredMessage × Nat)
  | [], _, cur, acc => .ok (acc.reverse, cur)
  | line :: rest, bytesRead, cur, acc =>
    if maxLineSize ≤ line.length then .error "scan: token too long"
    else if limit < (bytesRead : Int) + line.length ∧ 0 < acc.length then
      .ok (acc.reverse, cur)
    else
      readLoop limit rest (bytesRead + line.length) (cur + line.length + 1)
        (⟨line, offsetFromInt (cur + line.length + 1)⟩ :: acc)

/-- `Read` (storage.go) after the stream id has been resolved and the
file opened: `content` is the file's bytes at call time.  Decodes
`offset`, seeks (a negative position is a seek error), snapshots the
tail offset, scans line by line under the byte budget `limit`, and
returns the input offset unchanged as `nextOffset` when no message was
emitted. -/
def readFromFile (content : List Nat) (offset : String) (limit : Int) :
    Except String ReadResult :=
  let startOffset : Int := offsetToInt offset
  if startOffset < 0 then .error "seek: invalid argument"
  else
    match readLoop limit (scanLines (content.drop startOffset.toNat)) 0 startOffset.toNat [] with
    | .error e => .error e
    | .ok (msgs, cur) =>
      .ok { messages := msgs,
            nextOffset := if msgs = [] then offset else offsetFromInt cur,
            tailOffset := offsetFromInt content.length }

/-- The message payloads of a successful read, `none` on a failed read. -/
def readMsgs (content : List Nat) (offset : String) (limit : Int) :
    Option (List (List Nat)) :=
  match readFromFile content offset limit with
  | .ok r => some (r.messages.map (·.data))
  | .error _ => none

/-- A file made of newline-terminated records. -/
def joinR : List (List Nat) → List Nat
  | [] => []
  | r :: rest => r ++ 10 :: joinR rest

/-- Total payload size of a list of records. -/
def sumLen (l : List (List Nat)) : Nat := (l.map List.length).sum

/-- The messages `Read` builds when every line is taken, starting from
byte cursor `cur`: each record is paired with the encoded byte position
immediately past its own trailing newline. -/
def msgsFrom : List (List Nat) → Nat → List StoredMessage
  | [], _ => []
  | r :: rest, cur => ⟨r, offsetFromInt (cur + r.length + 1)⟩ :: msgsFrom rest (cur + r.length + 1)

/-- Spec-side accumulation rule (section 4.4 / claim C1), stated in the
spec's own words for comparison with `readLoop`: accumulate whole lines,
stopping before a new line only when the payload accumulated so far plus
the new line's bytes would exceed `limit` and at least one line has
already been accumulated. -/
def specAccumulate (limit : Int) : List (List Nat) → Nat → Bool → List (List Nat)
  | [], _, _ => []
  | l :: rest, acc, started =>
    if limit < (acc : Int) + l.length ∧ started = true then []
    else l :: specAccumulate limit rest (acc + l.length) true

/-! ### Scanner lemmas -/

theorem dropCR_eq_self {l : List Nat} (h : l.getLast? ≠ some 13) : dropCR l = l := by
  rw [dropCR, if_neg h]

theorem dropCR_length_le (l : List Nat) : (dropCR l).length ≤ l.length := by
  rw [dropCR]
  split
  · rw [List.length_dropLast]; omega
  · exact le_rfl

theorem scanLinesCore_append {seg : List Nat} (h : 10 ∉ seg) (rest acc : List Nat) :
    scanLinesCore (seg ++ 10 :: rest) acc
      = dropCR (acc.reverse ++ seg) :: (if rest = [] then [] else scanLinesCore rest []) := by
  induction seg generalizing acc with
  | nil => simp [scanLinesCore]
  | cons c cs ih =>
    have hc : c ≠ 10 := fun hc => h (hc ▸ List.mem_cons_self _ _)
    have hcs : 10 ∉ cs := fun hm => h (List.mem_cons_of_mem _ hm)
    simp only [List.cons_append, scanLinesCore, if_neg hc, List.append_eq]
    rw [ih hcs (c :: acc)]
    simp

theorem scanLinesCore_noNL {seg : List Nat} (h : 10 ∉ seg) (acc : List Nat) :
    scanLinesCore seg acc = [dropCR (acc.reverse ++ seg)] := by
  induction seg generalizing acc with
  | nil => simp [scanLinesCore]
  | cons c cs ih =>
    have hc : c ≠ 10 := fun hc => h (hc ▸ List.mem_cons_self _ _)
    have hcs : 10 ∉ cs := fun hm => h (List.mem_cons_of_mem _ hm)
    simp only [scanLinesCore, if_neg hc]
    rw [ih hcs (c :: acc)]
    simp

theorem scanLines_of_ne_nil {b : List Nat} (h : b ≠ []) :
    scanLines b = scanLinesCore b [] := by
  rw [scanLines.eq_def]
  split
  · exact absurd rfl h
  · rfl

theorem scanLines_append {a : List Nat} (h : 10 ∉ a) (b : List Nat) :
    scanLines (a ++ 10 :: b) = dropCR a :: scanLines b := by
  have hne : a ++ 10 :: b ≠ [] := by cases a <;> simp
  rw [scanLines_of_ne_nil hne, scanLinesCore_append h b []]
  simp only [List.reverse_nil, List.nil_append]
  congr 1
  by_cases hb : b = []
  · simp [hb, scanLines]
  · rw [if_neg hb, scanLines_of_ne_nil hb]

theorem scanLines_noNL {a : List Nat} (h : 10 ∉ a) (hne : a ≠ []) :
    scanLines a = [dropCR a] := by
  rw [scanLines_of_ne_nil hne, scanLinesCore_noNL h []]
  simp

theorem scanLines_joinR {recs : List (List Nat)} (h : ∀ r ∈ recs, 10 ∉ r) :
    scanLines (joinR recs) = recs.map dropCR := by
  induction recs with
  | nil => rfl
  | cons r rest ih =>
    rw [joinR, scanLines_append (h r (List.mem_cons_self _ _)) (joinR rest),
      ih fun x hx => h x (List.mem_cons_of_mem _ hx), List.map_cons]

theorem scanLines_joinR_noCR {recs : List (List Nat)}
    (h : ∀ r ∈ recs, 10 ∉ r ∧ r.getLast? ≠ some 13) :
    scanLines (joinR recs) = recs := by
  rw [scanLines_joinR fun r hr => (h r hr).1]
  have := List.map_congr_left (l := recs) (f := dropCR) (g := fun r => r)
    fun r hr => dropCR_eq_self (h r hr).2
  simpa using this

theorem joinR_length (recs : List (List Nat)) :
    (joinR recs).length = sumLen recs + recs.length := by
  induction recs with
  | nil => rfl
  | cons r rest ih =>
    simp only [joinR, List.length_append, List.length_cons, ih, sumLen, List.map_cons,
      List.sum_cons]
    omega

/-- Every token scanned from any byte suffix of a record-structured file
is at most as long as one of the records. -/
theorem scanLines_drop_len {recs : List (List Nat)} (h10 : ∀ r ∈ recs, 10 ∉ r) :
    ∀ start : Nat, ∀ l ∈ scanLines ((joinR recs).drop start), ∃ r ∈ recs, l.length ≤ r.length := by
  induction recs with
  | nil => intro start l hl; simp [joinR, scanLines] at hl
  | cons r rest ih =>
    intro start l hl
    have hr10 : 10 ∉ r := h10 r (List.mem_cons_self _ _)
    have hrest10 : ∀ x ∈ rest, 10 ∉ x := fun x hx => h10 x (List.mem_cons_of_mem _ hx)
    by_cases hstart : start ≤ r.length
    · rw [joinR, List.drop_append_of_le_length hstart,
        scanLines_append (fun hm => hr10 (List.drop_subset _ _ hm)) (joinR rest),
        List.mem_cons] at hl
      rcases hl with hl | hl
      · subst hl
        refine ⟨r, List.mem_cons_self _ _, le_trans (dropCR_length_le _) ?_⟩
        rw [List.length_drop]; omega
      · have := ih hrest10 0 l (by simpa using hl)
        exact this.imp fun x hx => ⟨List.mem_cons_of_mem _ hx.1, hx.2⟩
    · push_neg at hstart
      rcases Nat.exists_eq_add_of_lt hstart with ⟨k, hk⟩
      subst hk
      rw [joinR, Nat.add_assoc, List.drop_append, List.drop_succ_cons] at hl
      have := ih hrest10 k l hl
      exact this.imp fun x hx => ⟨List.mem_cons_of_mem _ hx.1, hx.2⟩

/-! ### Read loop lemmas -/

theorem readLoop_data (limit : Int) :
    ∀ (lines : List (List Nat)) (b cur : Nat) (acc : List StoredMessage),
      (∀ l ∈ lines, l.length < maxLineSize) →
      ∃ out, readLoop limit lines b cur acc = .ok out ∧
        out.1.map (·.data)
          = acc.reverse.map (·.data) ++ specAccumulate limit lines b (decide (0 < acc.length)) := by
  intro lines
  induction lines with
  | nil =>
    intro b cur acc _
    exact ⟨(acc.reverse, cur), rfl, by simp [specAccumulate]⟩
  | cons l rest ih =>
    intro b cur acc hmax
    have hl : l.length < maxLineSize := hmax l (List.mem_cons_self _ _)
    have hrest : ∀ x ∈ rest, x.length < maxLineSize :=
      fun x hx => hmax x (List.mem_cons_of_mem _ hx)
    rw [readLoop, if_neg (by omega)]
    by_cases hb : limit < (b : Int) + l.length ∧ 0 < acc.length
    · rw [if_pos hb]
      refine ⟨(acc.reverse, cur), rfl, ?_⟩
      rw [specAccumulate, if_pos ⟨hb.1, by simp [hb.2]⟩, List.append_nil]
    · rw [if_neg hb]
      obtain ⟨out, hout, hdata⟩ :=
        ih (b + l.length) (cur + l.length + 1)
          (⟨l, offsetFromInt (cur + l.length + 1)⟩ :: acc) hrest
      refine ⟨out, hout, ?_⟩
      have hflag :
          decide (0 < ((⟨l, offsetFromInt (cur + l.length + 1)⟩ : StoredMessage) :: acc).length)
            = true := by simp
      rw [hflag] at hdata
      have hcond : ¬(limit < (b : Int) + l.length ∧ decide (0 < acc.length) = true) := by
        intro hc
        exact hb ⟨hc.1, of_decide_eq_true hc.2⟩
      rw [hdata, specAccumulate, if_neg hcond]
      simp

theorem readLoop_all (limit : Int) :
    ∀ (lines : List (List Nat)) (b cur : Nat) (acc : List StoredMessage),
      (∀ l ∈ lines, l.length < maxLineSize) →
      ((b : Int) + sumLen lines ≤ limit) →
      readLoop limit lines b cur acc
        = .ok (acc.reverse ++ msgsFrom lines cur, cur + sumLen lines + lines.length) := by
  intro lines
  induction lines with
  | nil =>
    intro b cur acc _ _
    simp [readLoop, msgsFrom, sumLen]
  | cons l rest ih =>
    intro b cur acc hmax hbudget
    have hl : l.length < maxLineSize := hmax l (List.mem_cons_self _ _)
    have hsum : sumLen (l :: rest) = l.length + sumLen rest := by
      simp [sumLen]
    have hnb : ¬(limit < (b : Int) + l.length ∧ 0 < acc.length) := by
      rintro ⟨hlt, -⟩
      rw [hsum] at hbudget
      have : (0 : Int) ≤ sumLen rest := Int.natCast_nonneg _
      push_cast at hbudget hlt ⊢
      omega
    rw [readLoop, if_neg (by omega), if_neg hnb,
      ih (b + l.length) (cur + l.length + 1) _
        (fun x hx => hmax x (List.mem_cons_of_mem _ hx))
        (by rw [hsum] at hbudget; push_cast at hbudget ⊢; omega)]
    rw [msgsFrom]
    simp only [List.reverse_cons, List.append_assoc, List.cons_append, List.nil_append,
      List.length_cons]
    congr 2
    rw [hsum]
    omega

theorem msgsFrom_data (recs : List (List Nat)) : ∀ cur : Nat,
    (msgsFrom recs cur).map (·.data) = recs := by
  induction recs with
  | nil => intro cur; rfl
  | cons r rest ih => intro cur; simp [msgsFrom, ih]

theorem msgsFrom_offsets (recs : List (List Nat)) : ∀ cur : Nat,
    (msgsFrom recs cur).map (·.offset)
      = (List.range recs.length).map
          (fun i => offsetFromInt (cur + (joinR (recs.take (i + 1))).length)) := by
  induction recs with
  | nil => intro cur; rfl
  | cons r rest ih =>
    intro cur
    rw [msgsFrom, List.map_cons, List.length_cons, List.range_succ_eq_map,
      List.map_cons, ih (cur + r.length + 1), List.map_map]
    refine congrArg₂ List.cons ?_ ?_
    · refine congrArg offsetFromInt ?_
      rw [List.take_succ_cons, List.take_zero, joinR, joinR, List.length_append,
        List.length_cons, List.length_nil]
      omega
    · refine List.map_congr_left fun i _ => ?_
      refine congrArg offsetFromInt ?_
      simp only [Function.comp_apply, Nat.succ_eq_add_one, List.take_succ_cons, joinR,
        List.length_append, List.length_cons]
      omega

theorem sumLen_nonneg (l : List (List Nat)) : (0 : Int) ≤ (sumLen l : Int) :=
  Int.natCast_nonneg _

theorem sumLen_cons (r : List Nat) (rest : List (List Nat)) :
    sumLen (r :: rest) = r.length + sumLen rest := by
  simp [sumLen]

theorem specAccumulate_take_true (limit : Int) :
    ∀ (lines : List (List Nat)) (j b : Nat),
      ((b : Int) + sumLen (lines.take j) ≤ limit) →
      (j < lines.length → limit < (b : Int) + sumLen (lines.take (j + 1))) →
      j ≤ lines.length →
      specAccumulate limit lines b true = lines.take j := by
  intro lines
  induction lines with
  | nil => intro j b _ _ _; simp [specAccumulate]
  | cons l rest ih =>
    intro j b h1 h2 hle
    cases j with
    | zero =>
      have hstop : limit < (b : Int) + l.length := by
        have := h2 (by simp)
        rw [List.take_succ_cons, List.take_zero, sumLen_cons] at this
        simp only [sumLen, List.map_nil, List.sum_nil] at this
        push_cast at this ⊢
        omega
      rw [specAccumulate, if_pos ⟨hstop, rfl⟩, List.take_zero]
    | succ j =>
      rw [List.take_succ_cons, sumLen_cons] at h1
      have hgo : ¬(limit < (b : Int) + l.length ∧ (true = true)) := by
        rintro ⟨hlt, -⟩
        have := sumLen_nonneg (rest.take j)
        push_cast at h1 hlt
        omega
      rw [specAccumulate, if_neg hgo, List.take_succ_cons]
      congr 1
      refine ih j (b + l.length) (by push_cast at h1 ⊢; omega) ?_
        (by simpa using hle)
      intro hj
      have := h2 (by simpa using Nat.succ_lt_succ hj)
      rw [List.take_succ_cons, sumLen_cons] at this
      push_cast at this ⊢
      omega

theorem specAccumulate_take_false (limit : Int) (lines : List (List Nat)) (j b : Nat)
    (hj : 1 ≤ j)
    (h1 : (b : Int) + sumLen (lines.take j) ≤ limit)
    (h2 : j < lines.length → limit < (b : Int) + sumLen (lines.take (j + 1)))
    (hle : j ≤ lines.length) :
    specAccumulate limit lines b false = lines.take j := by
  cases lines with
  | nil => simp [specAccumulate]
  | cons l rest =>
    cases j with
    | zero => omega
    | succ j =>
      rw [List.take_succ_cons, sumLen_cons] at h1
      rw [specAccumulate, if_neg (by simp), List.take_succ_cons]
      congr 1
      refine specAccumulate_take_true limit rest j (b + l.length)
        (by push_cast at h1 ⊢; omega) ?_ (by simpa using hle)
      intro hjr
      have := h2 (by simpa using Nat.succ_lt_succ hjr)
      rw [List.take_succ_cons, sumLen_cons] at this
      push_cast at this ⊢
      omega

theorem specAccumulate_first (limit : Int) (l : List Nat) (rest : List (List Nat))
    (h : limit < (l.length : Int)) :
    specAccumulate limit (l :: rest) 0 false = [l] := by
  rw [specAccumulate, if_neg (by simp)]
  congr 1
  cases rest with
  | nil => rfl
  | cons l2 r2 =>
    rw [specAccumulate, if_pos]
    exact ⟨by push_cast; omega, rfl⟩

/-! ### `Read` characterisations -/

/-- For a file of newline-terminated records and an in-range starting
byte position, `Read` succeeds and its message payloads are exactly what
the spec's accumulation rule selects from the scanned lines. -/
theorem readMsgs_eq_spec (recs : List (List Nat)) (limit : Int) (start : Nat)
    (h10 : ∀ r ∈ recs, 10 ∉ r) (hmax : ∀ r ∈ recs, r.length < maxLineSize)
    (hstart : start < 2 ^ 63) :
    readMsgs (joinR recs) (offsetFromInt start) limit
      = some (specAccumulate limit (scanLines ((joinR recs).drop start)) 0 false) := by
  have hlines : ∀ l ∈ scanLines ((joinR recs).drop start), l.length < maxLineSize := by
    intro l hl
    obtain ⟨r, hr, hle⟩ := scanLines_drop_len h10 start l hl
    exact lt_of_le_of_lt hle (hmax r hr)
  obtain ⟨⟨msgs, cur⟩, hout, hdata⟩ :=
    readLoop_data limit (scanLines ((joinR recs).drop start)) 0 start [] hlines
  rw [readMsgs, readFromFile]
  simp only [offset_roundtrip start hstart]
  rw [if_neg (by omega), Int.toNat_natCast, hout]
  simp only [List.reverse_nil, List.map_nil, List.length_nil, List.nil_append,
    decide_eq_true_eq] at hdata
  simp only []
  rw [hdata]
  norm_num

/-- Reading from a byte position at or past end-of-file: no messages,
`nextOffset` is the input offset unchanged. -/
theorem readFromFile_past_end (content : List Nat) (offset : String) (limit : Int)
    (h : (content.length : Int) ≤ offsetToInt offset) :
    readFromFile content offset limit
      = .ok ⟨[], offset, offsetFromInt content.length⟩ := by
  have h0 : (0 : Int) ≤ offsetToInt offset :=
    le_trans (Int.natCast_nonneg _) h
  have hdrop : content.drop (offsetToInt offset).toNat = [] := by
    refine List.drop_eq_nil_of_le ?_
    rw [← Int.toNat_natCast content.length]
    exact Int.toNat_le_toNat h
  rw [readFromFile]
  simp only [hdrop]
  rw [if_neg (by omega)]
  rfl

/-- Reading a file of newline-terminated records from position 0 with a
budget at least the total payload: every record is emitted, each with
the offset just past its trailing newline, and the cursor ends at the
file size. -/
theorem readFromFile_all (recs : List (List Nat)) (limit : Int)
    (h10 : ∀ r ∈ recs, 10 ∉ r) (hmax : ∀ r ∈ recs, r.length < maxLineSize)
    (hcr : ∀ r ∈ recs, r.getLast? ≠ some 13)
    (hlimit : (sumLen recs : Int) ≤ limit) :
    readFromFile (joinR recs) (offsetFromInt 0) limit
      = .ok ⟨msgsFrom recs 0, offsetFromInt (joinR recs).length,
             offsetFromInt (joinR recs).length⟩ := by
  have hround : offsetToInt (offsetFromInt 0) = (0 : Int) := offset_roundtrip 0 (by norm_num)
  rw [readFromFile]
  simp only [hround]
  rw [if_neg (by omega)]
  simp only [Int.toNat_zero, List.drop_zero]
  rw [scanLines_joinR_noCR fun r hr => ⟨h10 r hr, hcr r hr⟩,
    readLoop_all limit recs 0 0 [] hmax (by simpa using hlimit)]
  simp only [List.reverse_nil, List.nil_append]
  cases recs with
  | nil =>
    simp [msgsFrom, joinR, sumLen]
  | cons r rest =>
    have hne : msgsFrom (r :: rest) 0 ≠ [] := by simp [msgsFrom]
    simp only [if_neg hne]
    rw [joinR_length, Nat.zero_add]

/-! ### Storage state: index, resolution, subscriptions

File paths are modelled as lists of path components relative to the
searchable root (`projectsDir`); components contain no separator.  The
`files` field lists the regular files under `projectsDir` in the
enumeration order of `filepath.WalkDir` (lexical depth-first order),
which is also the order the fallback walk in `getPath` observes;
directories are omitted (the walk callback skips them, and no directory
is assumed to carry a `.jsonl` name, so the glob too only ever matches
files).  Channels are identified by numbers.  The watcher's goroutine
scheduling is not modelled; each index-affecting step is modelled as an
atomic operation on this state (the code guards each map access with
`s.mu`). -/
structure ClaudeStorage where
  fileIndex : String → Option (List String)
  subscribers : String → List Nat
  files : List (List String)
  historyPath : List String

/-- The errors `storage.go` declares. -/
inductive StorageError where
  | readOnly
  | streamNotFound
deriving DecidableEq, Repr

/-- `strings.TrimPrefix(streamID, "/")`: drops one leading slash. -/
def trimSlash (s : String) : String :=
  if s.data.head? = some '/' then String.mk s.data.tail else s

/-- The file name a stream id resolves to: `<id>.jsonl`. -/
def jsonlName (id : String) : String := id ++ ".jsonl"

/-- `s.fileIndex[streamID] = path` under the lock. -/
def insertIndex (s : ClaudeStorage) (id : String) (path : List String) : ClaudeStorage :=
  { s with fileIndex := fun k => if k = id then some path else s.fileIndex k }

/-- `getPath` (storage.go): strip one leading slash; exact map lookup;
then `filepath.Glob(projectsDir + "/**/" + id + ".jsonl")` — Go's glob
`**` spans exactly one path component, so this matches files exactly one
directory below the root (matches come back in lexical order, which is
the order depth-2 entries occupy in `files`); then a full recursive
`WalkDir` stopping at the first file whose base name matches
(`filepath.SkipAll`); each fallback hit is cached in the index.  The
returned pair is (result, updated state). -/
def getPath (s : ClaudeStorage) (streamID0 : String) :
    Option (List String) × ClaudeStorage :=
  let streamID := trimSlash streamID0
  match s.fileIndex streamID with
  | some path => (some path, s)
  | none =>
    match s.files.filter
        (fun p => p.length == 2 && p.getLast? == some (jsonlName streamID)) with
    | m :: _ => (some m, insertIndex s streamID m)
    | [] =>
      match s.files.find? (fun p => p.getLast? == some (jsonlName streamID)) with
      | some m => (some m, insertIndex s streamID m)
      | none => (none, s)

/-- `Create` (storage.go): read-only stub.  The unused `ctx` and config
parameters are omitted; result is (state, created?, error). -/
def Create (s : ClaudeStorage) (streamID : String) :
    ClaudeStorage × Bool × Option StorageError :=
  (s, false, some .readOnly)

/-- `Append` (storage.go): read-only stub; result is
(state, returned offset, error).  (Named `Append'` because core Lean
already declares `Append`.) -/
def Append' (s : ClaudeStorage) (streamID : String) (data : List Nat) (seq : String) :
    ClaudeStorage × String × Option StorageError :=
  (s, ZeroOffset, some .readOnly)

/-- `AppendFrom` (storage.go): read-only stub; the reader argument is
modelled by the byte list it would yield. -/
def AppendFrom (s : ClaudeStorage) (streamID : String) (r : List Nat) (seq : String) :
    ClaudeStorage × String × Option StorageError :=
  (s, ZeroOffset, some .readOnly)

/-- `Delete` (storage.go): read-only stub. -/
def Delete (s : ClaudeStorage) (streamID : String) :
    ClaudeStorage × Option StorageError :=
  (s, some .readOnly)

/-- `Subscribe` (storage.go): strip one leading slash, resolve the path
(registering nothing on failure), otherwise append a fresh channel
(`newCh`) to the id's subscriber list.  The cancellation goroutine only
runs at context teardown and is not part of this state step. -/
def Subscribe (s : ClaudeStorage) (streamID0 : String) (offset : String) (newCh : Nat) :
    ClaudeStorage × Option Nat × Option StorageError :=
  let streamID := trimSlash streamID0
  match getPath s streamID with
  | (none, s') => (s', none, some .streamNotFound)
  | (some _, s') =>
    ({ s' with subscribers := fun k =>
        if k = streamID then s'.subscribers k ++ [newCh] else s'.subscribers k },
     some newCh, none)

/-- Does this path name end in `.jsonl`?  (`strings.HasSuffix` on the
full path; components hold no separator, so this is a condition on the
last component.) -/
def isJsonlPath (p : List String) : Bool :=
  match p.getLast? with
  | some f => f.data.length ≥ 6 && (f.data.drop (f.data.length - 6) == ".jsonl".data)
  | none => false

/-- `strings.TrimSuffix(filepath.Base(path), ".jsonl")`. -/
def baseId (p : List String) : String :=
  match p.getLast? with
  | some f =>
    if f.data.drop (f.data.length - 6) == ".jsonl".data then
      String.mk (f.data.take (f.data.length - 6))
    else f
  | none => ""

/-- The index-affecting operations of the storage (claim C9): the
initial `indexFiles` walk, one watch-loop event, a resolution
(`getPath`, as performed by `Head`/`Read`/`Subscribe`), a subscription
registration, and the four mutating stubs. -/
inductive StoreOp where
  | indexScan
  | watchEvent (name : List String) (isWriteOrCreate : Bool)
  | resolve (id : String)
  | subscribeReg (id : String) (ch : Nat)
  | createOp (id : String)
  | appendOp (id : String) (data : List Nat) (seq : String)
  | appendFromOp (id : String) (r : List Nat) (seq : String)
  | deleteOp (id : String)

/-- State effect of each operation, as `storage.go` performs it:
`indexScan` registers every `.jsonl` file it walks; a write/create
watch event on a `.jsonl` file other than the history file upserts the
index (the history file maps to the fixed `"_history"` entry and is not
re-indexed); resolution is `getPath`; the mutating stubs do nothing. -/
def applyOp (op : StoreOp) (s : ClaudeStorage) : ClaudeStorage :=
  match op with
  | .indexScan =>
    s.files.foldl
      (fun st p => if isJsonlPath p then insertIndex st (baseId p) p else st) s
  | .watchEvent name rel =>
    if rel && isJsonlPath name && !(name == s.historyPath) then
      insertIndex s (baseId name) name
    else s
  | .resolve id => (getPath s id).2
  | .subscribeReg id ch => (Subscribe s id ZeroOffset ch).1
  | .createOp id => (Create s id).1
  | .appendOp id data seq => (Append' s id data seq).1
  | .appendFromOp id r seq => (AppendFrom s id r seq).1
  | .deleteOp id => (Delete s id).1

/-! ### Index lemmas -/

theorem insertIndex_isSome (s : ClaudeStorage) (id k : String) (path : List String)
    (h : (s.fileIndex k).isSome) : (((insertIndex s id path).fileIndex) k).isSome := by
  rw [insertIndex]
  by_cases hk : k = id <;> simp [hk, h]

theorem getPath_fileIndex_isSome (s : ClaudeStorage) (id k : String)
    (h : (s.fileIndex k).isSome) : (((getPath s id).2.fileIndex) k).isSome := by
  rw [getPath]
  rcases hidx : s.fileIndex (trimSlash id) with - | path
  · simp only [hidx]
    rcases hfil : s.files.filter
        (fun p => p.length == 2 && p.getLast? == some (jsonlName (trimSlash id))) with
      - | ⟨m, ms⟩
    · simp only [hfil]
      rcases hfind : s.files.find?
          (fun p => p.getLast? == some (jsonlName (trimSlash id))) with - | m
      · simpa [hfind] using h
      · simpa [hfind] using insertIndex_isSome s _ k _ h
    · simpa [hfil] using insertIndex_isSome s _ k _ h
  · simpa [hidx] using h

theorem getPath_fail_state (s : ClaudeStorage) (id : String)
    (h : (getPath s id).1 = none) : getPath s id = (none, s) := by
  rw [getPath] at h ⊢
  rcases hidx : s.fileIndex (trimSlash id) with - | path
  · simp only [hidx] at h ⊢
    rcases hfil : s.files.filter
        (fun p => p.length == 2 && p.getLast? == some (jsonlName (trimSlash id))) with
      - | ⟨m, ms⟩
    · simp only [hfil] at h ⊢
      rcases hfind : s.files.find?
          (fun p => p.getLast? == some (jsonlName (trimSlash id))) with - | m
      · simp [hfind]
      · simp [hfind] at h
    · simp [hfil] at h
  · simp [hidx] at h

theorem foldl_insert_isSome (files : List (List String)) :
    ∀ (s : ClaudeStorage) (k : String), (s.fileIndex k).isSome →
      ((files.foldl
          (fun st p => if isJsonlPath p then insertIndex st (baseId p) p else st)
          s).fileIndex k).isSome := by
  induction files with
  | nil => intro s k h; exact h
  | cons p ps ih =>
    intro s k h
    rw [List.foldl_cons]
    refine ih _ k ?_
    by_cases hp : isJsonlPath p
    · rw [if_pos hp]; exact insertIndex_isSome s _ k _ h
    · rw [if_neg hp]; exact h

theorem applyOp_fileIndex_isSome (op : StoreOp) (s : ClaudeStorage) (k : String)
    (h : (s.fileIndex k).isSome) : (((applyOp op s).fileIndex) k).isSome := by
  cases op with
  | indexScan => exact foldl_insert_isSome s.files s k h
  | watchEvent name rel =>
    rw [applyOp]
    split
    · exact insertIndex_isSome s _ k _ h
    · exact h
  | resolve id => exact getPath_fileIndex_isSome s id k h
  | subscribeReg id ch =>
    have hsome := getPath_fileIndex_isSome s (trimSlash id) k h
    rw [applyOp, Subscribe]
    rcases hgp : getPath s (trimSlash id) with ⟨- | path, s'⟩ <;>
      · rw [hgp] at hsome
        simpa using hsome
  | createOp id => exact h
  | appendOp id data seq => exact h
  | appendFromOp id r seq => exact h
  | deleteOp id => exact h

/-! ### Claims -/

/-- C1 (counterexample): the claim fails on a record ending in a
carriage-return byte.  The file is the single newline-delimited record
`[97, 13]` ("a\r", 2 bytes); with budget `maxBytes = 1 < 2` the claim
demands exactly that record back, but `bufio.ScanLines` strips the
trailing CR, so `Read` returns the payload `[97]` (and offsets that skip
the CR byte). -/
theorem C1_counterexample :
    readFromFile [97, 13, 10] (offsetFromInt 0) 1
        = .ok ⟨[⟨[97], offsetFromInt 2⟩], offsetFromInt 2, offsetFromInt 3⟩ ∧
      [([97] : List Nat)] ≠ [[97, 13]] :=
  ⟨rfl, by decide⟩

/-- C1 (amended): for every file of newline-delimited records none of
which ends in a carriage-return byte and each shorter than the
scanner's 16 MiB line bound, every representable starting offset and
every byte budget: (1) `Read` succeeds and accumulates whole scanned
lines in file order, stopping before a line exactly when the payload
accumulated so far plus that line's bytes would exceed the budget and
at least one line is already accumulated; (2) a budget smaller than the
first record still returns exactly that one record; (3) a budget large
enough for the first `k` records but not for `k + 1` returns exactly
those `k` records. -/
theorem C1_read_accumulation (recs : List (List Nat)) (limit : Int)
    (hrec : ∀ r ∈ recs, 10 ∉ r ∧ r.length < maxLineSize ∧ r.getLast? ≠ some 13) :
    (∀ start : Nat, start < 2 ^ 63 →
        readMsgs (joinR recs) (offsetFromInt start) limit
          = some (specAccumulate limit (scanLines ((joinR recs).drop start)) 0 false)) ∧
    (∀ r1 rest, recs = r1 :: rest → limit < (r1.length : Int) →
        readMsgs (joinR recs) (offsetFromInt 0) limit = some [r1]) ∧
    (∀ k, 1 ≤ k → k < recs.length → (sumLen (recs.take k) : Int) ≤ limit →
        limit < (sumLen (recs.take (k + 1)) : Int) →
        readMsgs (joinR recs) (offsetFromInt 0) limit = some (recs.take k)) := by
  have h10 : ∀ r ∈ recs, 10 ∉ r := fun r hr => (hrec r hr).1
  have hmax : ∀ r ∈ recs, r.length < maxLineSize := fun r hr => (hrec r hr).2.1
  have hcr : ∀ r ∈ recs, r.getLast? ≠ some 13 := fun r hr => (hrec r hr).2.2
  have hlines : scanLines (joinR recs) = recs :=
    scanLines_joinR_noCR fun r hr => ⟨h10 r hr, hcr r hr⟩
  refine ⟨fun start hs => readMsgs_eq_spec recs limit start h10 hmax hs, ?_, ?_⟩
  · intro r1 rest hrecs hbudget
    rw [readMsgs_eq_spec recs limit 0 h10 hmax (by norm_num), List.drop_zero, hlines,
      hrecs, specAccumulate_first limit r1 rest hbudget]
  · intro k hk1 hklt hle hgt
    rw [readMsgs_eq_spec recs limit 0 h10 hmax (by norm_num), List.drop_zero, hlines,
      specAccumulate_take_false limit recs k 0 hk1 (by push_cast; omega)
        (fun _ => by push_cast; omega) (le_of_lt hklt)]

/-- C1 (witness): two records "a" and "bb" under budget 1: the budget
covers the first record but not both, and exactly the first comes
back. -/
theorem C1_read_accumulation_witness :
    (∀ r ∈ ([[97], [98, 98]] : List (List Nat)),
        10 ∉ r ∧ r.length < maxLineSize ∧ r.getLast? ≠ some 13) ∧
      readMsgs (joinR [[97], [98, 98]]) (offsetFromInt 0) 1 = some [[97]] :=
  ⟨by decide,
    (C1_read_accumulation [[97], [98, 98]] 1 (by decide)).2.2 1 (by norm_num)
      (by norm_num) (by decide) (by decide)⟩

/-- C2: for representable byte positions `p1 < p2`, the encodings are
20-character zero-padded decimal strings and `encode p1` precedes
`encode p2` in lexicographic string order. -/
theorem C2_encode_monotone (p1 p2 : Nat) (h12 : p1 < p2) (h2 : p2 < 2 ^ 63) :
    (offsetFromInt p1).length = 20 ∧ (offsetFromInt p2).length = 20 ∧
      offsetFromInt p1 < offsetFromInt p2 :=
  ⟨offsetFromInt_length p1, offsetFromInt_length p2,
    offsetFromInt_lt h12 (lt_trans h2 (by norm_num))⟩

/-- C2 (witness): instance at positions 3 and 7. -/
theorem C2_encode_monotone_witness :
    (3 : Nat) < 7 ∧ (7 : Nat) < 2 ^ 63 ∧
      ((offsetFromInt 3).length = 20 ∧ (offsetFromInt 7).length = 20 ∧
        offsetFromInt 3 < offsetFromInt 7) :=
  ⟨by norm_num, by norm_num, C2_encode_monotone 3 7 (by norm_num) (by norm_num)⟩

/-- C3: decoding inverts encoding on every representable non-negative
byte position. -/
theorem C3_decode_encode (p : Nat) (h : p < 2 ^ 63) :
    offsetToInt (offsetFromInt p) = (p : Int) :=
  offset_roundtrip p h

/-- C3 (witness): instance at position 0, whose encoding is the
all-zeros 20-digit token. -/
theorem C3_decode_encode_witness :
    (0 : Nat) < 2 ^ 63 ∧ offsetToInt (offsetFromInt 0) = (0 : Int) :=
  ⟨by norm_num, C3_decode_encode 0 (by norm_num)⟩

/-- C4 (counterexample): `"123"` is not a fixed-width encoding produced
by `encode` (every encoding has 20 characters), so the claim calls it
malformed and demands that it decode to 0 — but it decodes to 123. -/
theorem C4_counterexample :
    offsetToInt "123" = 123 ∧ ∀ p : Nat, offsetFromInt p ≠ "123" := by
  refine ⟨by decide, fun p hp => ?_⟩
  have hlen := congrArg String.length hp
  rw [offsetFromInt_length] at hlen
  have : ("123" : String).length = 3 := rfl
  omega

/-- C4 (amended): the sentinel and its alias decode to 0, and a
malformed token decodes leniently by best-effort integer parsing after
leading zeros are stripped: tokens that fail to parse decode to 0
(rather than failing), while parseable non-canonical tokens decode to
their numeric value (e.g. the unpadded `"123"` to 123, `"0-1"` to
−1). -/
theorem C4_decode_lenient :
    offsetToInt ZeroOffset = 0 ∧ offsetToInt "-1" = 0 ∧ offsetToInt "abc" = 0 ∧
      offsetToInt "00xyz" = 0 ∧ offsetToInt "+-3" = 0 ∧ offsetToInt "" = 0 ∧
      offsetToInt "123" = 123 ∧ offsetToInt "0-1" = -1 := by
  decide

/-- C5 (counterexample): the claim fails on a record ending in a
carriage-return byte.  The file is the single record `[98, 13]`
("b\r"), total size S = 3; the claim demands `nextOffset = encode 3`
and the message offset just past the record's newline (position 3),
but the scanner strips the trailing CR and `Read` reports offset 2 for
both. -/
theorem C5_counterexample :
    readFromFile [98, 13, 10] (offsetFromInt 0) 10
        = .ok ⟨[⟨[98], offsetFromInt 2⟩], offsetFromInt 2, offsetFromInt 3⟩ ∧
      offsetFromInt 2 ≠ offsetFromInt 3 :=
  ⟨rfl, by decide⟩

/-- C5 (amended): for every file consisting exactly of newline-delimited
records none of which ends in a carriage-return byte and each shorter
than the scanner's 16 MiB line bound, reading from offset 0 with a
budget at least the total payload returns all `n` messages — payloads
equal to the records in order, each carrying as its offset the encoded
byte position just past its own trailing newline — and both
`nextOffset` and `tailOffset` equal `encode S` where `S` is the file
size. -/
theorem C5_read_from_zero (recs : List (List Nat)) (limit : Int)
    (hrec : ∀ r ∈ recs, 10 ∉ r ∧ r.length < maxLineSize ∧ r.getLast? ≠ some 13)
    (hlimit : (sumLen recs : Int) ≤ limit) :
    readFromFile (joinR recs) (offsetFromInt 0) limit
        = .ok ⟨msgsFrom recs 0, offsetFromInt (joinR recs).length,
               offsetFromInt (joinR recs).length⟩ ∧
      (msgsFrom recs 0).map (·.data) = recs ∧
      (msgsFrom recs 0).map (·.offset)
        = (List.range recs.length).map
            (fun i => offsetFromInt (joinR (recs.take (i + 1))).length) := by
  refine ⟨readFromFile_all recs limit (fun r hr => (hrec r hr).1)
      (fun r hr => (hrec r hr).2.1) (fun r hr => (hrec r hr).2.2) hlimit,
    msgsFrom_data recs 0, ?_⟩
  rw [msgsFrom_offsets recs 0]
  exact List.map_congr_left fun i _ => congrArg offsetFromInt (Nat.zero_add _)

/-- C5 (witness): the single record "hi" with budget 2 comes back whole
with `nextOffset = tailOffset = encode 3`. -/
theorem C5_read_from_zero_witness :
    (∀ r ∈ ([[104, 105]] : List (List Nat)),
        10 ∉ r ∧ r.length < maxLineSize ∧ r.getLast? ≠ some 13) ∧
      (sumLen [[104, 105]] : Int) ≤ 2 ∧
      (readFromFile (joinR [[104, 105]]) (offsetFromInt 0) 2
          = .ok ⟨msgsFrom [[104, 105]] 0, offsetFromInt (joinR [[104, 105]]).length,
                 offsetFromInt (joinR [[104, 105]]).length⟩ ∧
        (msgsFrom [[104, 105]] 0).map (·.data) = [[104, 105]] ∧
        (msgsFrom [[104, 105]] 0).map (·.offset)
          = (List.range ([[104, 105]] : List (List Nat)).length).map
              (fun i => offsetFromInt (joinR (([[104, 105]] : List (List Nat)).take (i + 1))).length)) :=
  ⟨by decide, by decide, C5_read_from_zero [[104, 105]] 2 (by decide) (by decide)⟩

/-- C6: for every file and every offset token decoding to a byte
position at or beyond the file size, `Read` returns zero messages and
`nextOffset` equal to the input token unchanged (with `tailOffset` the
encoded file size). -/
theorem C6_read_at_or_past_end (content : List Nat) (offset : String) (limit : Int)
    (h : (content.length : Int) ≤ offsetToInt offset) :
    readFromFile content offset limit = .ok ⟨[], offset, offsetFromInt content.length⟩ :=
  readFromFile_past_end content offset limit h

/-- C6 (witness): reading the 2-byte file "a\n" from the encoded
position 2 (its exact size) yields no messages and echoes the input
offset. -/
theorem C6_read_at_or_past_end_witness :
    ((([97, 10] : List Nat).length : Int) ≤ offsetToInt (offsetFromInt 2)) ∧
      readFromFile [97, 10] (offsetFromInt 2) 5
        = .ok ⟨[], offsetFromInt 2, offsetFromInt ([97, 10] : List Nat).length⟩ :=
  ⟨by decide, C6_read_at_or_past_end [97, 10] (offsetFromInt 2) 5 (by decide)⟩

/-- C7: every mutating call — `Create`, `Append`, `AppendFrom`,
`Delete` — on every stream id and every storage state returns the
read-only error and the state (index, subscriber registry, files)
unchanged, with `Create` reporting `false` and the append variants
returning the zero offset. -/
theorem C7_mutating_read_only (s : ClaudeStorage) (id : String)
    (data r : List Nat) (seq : String) :
    Create s id = (s, false, some .readOnly) ∧
      Append' s id data seq = (s, ZeroOffset, some .readOnly) ∧
      AppendFrom s id r seq = (s, ZeroOffset, some .readOnly) ∧
      Delete s id = (s, some .readOnly) :=
  ⟨rfl, rfl, rfl, rfl⟩

/-- C8: a stream whose file exists under the searchable root only at a
depth the shallow one-level glob does not match, and which is not yet
indexed, still resolves through the recursive fallback walk: the result
is the first matching path the walk enumerates, and that path is cached
in the index. -/
theorem C8_deep_resolution (s : ClaudeStorage) (id : String) (m : List String)
    (htrim : trimSlash id = id)
    (hidx : s.fileIndex id = none)
    (hshallow : ∀ p ∈ s.files, p.getLast? = some (jsonlName id) → p.length ≠ 2)
    (hfind : s.files.find? (fun p => p.getLast? == some (jsonlName id)) = some m) :
    getPath s id = (some m, insertIndex s id m) ∧
      (getPath s id).2.fileIndex id = some m := by
  have hfil : s.files.filter
      (fun p => p.length == 2 && p.getLast? == some (jsonlName id)) = [] := by
    rw [List.filter_eq_nil_iff]
    intro p hp
    simp only [Bool.and_eq_true, beq_iff_eq, not_and]
    intro hlen hbase
    exact absurd hlen (hshallow p hp hbase)
  have hmain : getPath s id = (some m, insertIndex s id m) := by
    rw [getPath, htrim, hidx]
    simp only [hfil, hfind]
  exact ⟨hmain, by rw [hmain]; simp [insertIndex]⟩

/-- Storage state for the C8 witness: empty index, one file two
directory levels below the root. -/
def storeA : ClaudeStorage :=
  { fileIndex := fun _ => none
    subscribers := fun _ => []
    files := [["a", "b", "c.jsonl"]]
    historyPath := ["history.jsonl"] }

/-- C8 (witness): id "c" backed only by `a/b/c.jsonl` (depth 3, so the
one-level pattern misses it) resolves via the walk and is cached. -/
theorem C8_deep_resolution_witness :
    (trimSlash "c" = "c" ∧ storeA.fileIndex "c" = none ∧
      (∀ p ∈ storeA.files, p.getLast? = some (jsonlName "c") → p.length ≠ 2) ∧
      storeA.files.find? (fun p => p.getLast? == some (jsonlName "c"))
        = some ["a", "b", "c.jsonl"]) ∧
    (getPath storeA "c" = (some ["a", "b", "c.jsonl"], insertIndex storeA "c" ["a", "b", "c.jsonl"]) ∧
      (getPath storeA "c").2.fileIndex "c" = some ["a", "b", "c.jsonl"]) :=
  ⟨⟨rfl, rfl, by decide, by decide⟩,
    C8_deep_resolution storeA "c" ["a", "b", "c.jsonl"] rfl rfl (by decide) (by decide)⟩

/-- C9: the file index never loses an entry: for every modelled
operation — the initial scan, a watch event, a resolution (as performed
by `Head`/`Read`/`Subscribe`), a subscription registration, or a
mutating stub — an id that is mapped to a path before the operation is
still mapped to some path (possibly overwritten for that same id)
afterwards; the index, being a map, holds at most one path per id. -/
theorem C9_index_entries_persist (op : StoreOp) (s : ClaudeStorage) (id : String)
    (p : List String) (h : s.fileIndex id = some p) :
    ∃ q, (applyOp op s).fileIndex id = some q :=
  Option.isSome_iff_exists.mp
    (applyOp_fileIndex_isSome op s id (by simp [h]))

/-- Storage state for the C9 witness: only the `"_history"` entry. -/
def storeB : ClaudeStorage :=
  { fileIndex := fun k => if k = "_history" then some ["history.jsonl"] else none
    subscribers := fun _ => []
    files := []
    historyPath := ["history.jsonl"] }

/-- C9 (witness): resolving an unrelated id leaves the `"_history"`
entry present. -/
theorem C9_index_entries_persist_witness :
    storeB.fileIndex "_history" = some ["history.jsonl"] ∧
      ∃ q, (applyOp (.resolve "x") storeB).fileIndex "_history" = some q :=
  ⟨by decide, C9_index_entries_persist (.resolve "x") storeB "_history"
    ["history.jsonl"] (by decide)⟩

/-- C10: subscribing to an unresolvable stream id returns the
stream-not-found error and no channel, and leaves the whole state — in
particular the subscriber registry — unchanged. -/
theorem C10_subscribe_not_found (s : ClaudeStorage) (id off : String) (ch : Nat)
    (h : (getPath s (trimSlash id)).1 = none) :
    Subscribe s id off ch = (s, none, some .streamNotFound) ∧
      (Subscribe s id off ch).1.subscribers = s.subscribers := by
  have hfail := getPath_fail_state s (trimSlash id) h
  have hmain : Subscribe s id off ch = (s, none, some .streamNotFound) := by
    rw [Subscribe, hfail]
  exact ⟨hmain, by rw [hmain]⟩

/-- Storage state for the C10 witness: nothing indexed, no files. -/
def storeC : ClaudeStorage :=
  { fileIndex := fun _ => none
    subscribers := fun _ => []
    files := []
    historyPath := ["history.jsonl"] }

/-- C10 (witness): subscribing to "nosuch" on an empty store fails with
stream-not-found and registers nothing. -/
theorem C10_subscribe_not_found_witness :
    (getPath storeC (trimSlash "nosuch")).1 = none ∧
      (Subscribe storeC "nosuch" ZeroOffset 0 = (storeC, none, some .streamNotFound) ∧
        (Subscribe storeC "nosuch" ZeroOffset 0).1.subscribers = storeC.subscribers) :=
  ⟨rfl, C10_subscribe_not_found storeC "nosuch" ZeroOffset 0 rfl⟩
